import Mathlib

/-!
Shallow embedding of the dynamic-programming notebook
(`notebooks/misc/DynamicProgramming.ipynb`): the naive and tabulated
Fibonacci generators, the quadratic longest-increasing-subsequence solver
`find_lis`, and the 0-1 knapsack table builder `knapsack`, together with
theorems checking the natural-language specification against them.

Conventions used throughout:
* Python integers are `Int` (the LIS length table holds the loop counters
  `length[i]`, which are always non-negative, so it is embedded as `List Nat`).
* The sentinel `-1` stored in `prev` / `best_seq_end` is embedded as
  `Option Nat` (`none` for `-1`).
* A Python `IndexError` is embedded as `none` in an `Option` result; list
  accesses that are always in bounds in the source are embedded with `getD`.
-/

set_option maxRecDepth 4000

namespace DPNotebook

/-- Source `fib`: naive doubly recursive Fibonacci,
`fib(n) = fib(n - 1) + fib(n - 2)` with `fib(0) = 0`, `fib(1) = 1`. -/
def fib : Nat → Nat
  | 0 => 0
  | 1 => 1
  | n + 2 => fib (n + 1) + fib n

/-- Source `all_fib(n)`: `for i in range(n): fibs.append(fib(i))`.
The argument is an integer; Python `range(n)` is empty for `n ≤ 0`,
so only `n.toNat` elements are produced and a negative `n` yields `[]`. -/
def all_fib (n : Int) : List Nat :=
  (List.range n.toNat).map fib

/-- Source `all_fib_dp(n)`: the tabulated variant; `fibs.append(i)` for
`i < 2`, else `fibs.append(fibs[i - 2] + fibs[i - 1])`.  The reads
`fibs[i - 2]`, `fibs[i - 1]` are in bounds (the list has `i` elements when
iteration `i` runs), so they are embedded with `getD`. -/
def all_fib_dp (n : Int) : List Nat :=
  (List.range n.toNat).foldl
    (fun fibs i =>
      if i < 2 then fibs ++ [i]
      else fibs ++ [fibs.getD (i - 2) 0 + fibs.getD (i - 1) 0]) []

/-! ### Longest increasing subsequence (`find_lis`) -/

/-- Body of the inner scan of `find_lis`:
`if (length[j] + 1) > length[i] and seq[j] < seq[i]: length[i] = length[j] + 1;
prev[i] = j`.  The running pair `st` is `(length[i], prev[i])`; all `seq`/`len`
reads are at indices `< i < len(seq)`, hence `getD`. -/
def lisScanStep (seq : List Int) (len : List Nat) (i : Nat)
    (st : Nat × Option Nat) (j : Nat) : Nat × Option Nat :=
  if len.getD j 0 + 1 > st.1 ∧ seq.getD j 0 < seq.getD i 0
  then (len.getD j 0 + 1, some j)
  else st

/-- Inner scan of `find_lis` at position `i`:
`for j in range(i - 1, -1, -1)` (descending from `i - 1` to `0`), starting
from the values `length[i] = 0` and `prev[i] = -1` (`none`) set just before
the scan. -/
def lisInner (seq : List Int) (len : List Nat) (i : Nat) : Nat × Option Nat :=
  ((List.range i).reverse).foldl (lisScanStep seq len i) (0, none)

/-- State of the outer loop of `find_lis`: the two tables and the running
`max_length` / `best_seq_end` (the latter `none` for the Python `-1`). -/
structure LisState where
  len : List Nat
  prev : List (Option Nat)
  maxLen : Nat
  best : Option Nat
  deriving Repr, DecidableEq

/-- One iteration of the outer loop of `find_lis`: run the inner scan at `i`,
store its results in the tables, then
`if length[i] > max_length: max_length = length[i]; best_seq_end = i`. -/
def lisStep (seq : List Int) (st : LisState) (i : Nat) : LisState :=
  let r := lisInner seq st.len i
  let len := st.len.set i r.1
  let prev := st.prev.set i r.2
  if r.1 > st.maxLen then ⟨len, prev, r.1, some i⟩ else ⟨len, prev, st.maxLen, st.best⟩

/-- State before the outer loop of `find_lis`: `max_length = 1`,
`best_seq_end = -1`, `length = [0]*n` with `length[0] = 1`, and
`prev = [0]*n` with `prev[0] = -1`.  The placeholder zeros written into
`prev[1:]` are overwritten at the top of iteration `i` before any read of
`prev`, so the embedding initialises those cells directly to `none`. -/
def lisInit (seq : List Int) : LisState :=
  ⟨(List.replicate seq.length 0).set 0 1,
   List.replicate seq.length (none : Option Nat),
   1, none⟩

/-- The tables after the outer loop `for i in range(1, n)` of `find_lis`. -/
def lisTables (seq : List Int) : LisState :=
  (List.range' 1 (seq.length - 1)).foldl (lisStep seq) (lisInit seq)

/-- Reconstruction loop of `find_lis`:
`while element != -1: lis.append(seq[element]); element = prev[element]`.
Every stored predecessor is strictly smaller than its position, so the
chain is strictly decreasing and `fuel = len(seq)` iterations always
suffice; the fuel argument makes the recursion structural. -/
def collect (seq : List Int) (prev : List (Option Nat)) : Nat → Option Nat → List Int
  | _, none => []
  | 0, some _ => []
  | fuel + 1, some e => seq.getD e 0 :: collect seq prev fuel (prev.getD e none)

/-- Source `find_lis(seq)`.  On the empty sequence the very first statements
`prev[0] = -1` / `length[0] = 1` index into empty lists and raise
`IndexError`, embedded as `none`; otherwise the tables are built and the
chain from `best_seq_end` is collected and reversed (`lis[::-1]`). -/
def find_lis (seq : List Int) : Option (List Int) :=
  if seq.length = 0 then none
  else
    let st := lisTables seq
    some ((collect seq st.prev seq.length st.best).reverse)

/-! ### 0-1 knapsack (`knapsack`) -/

/-- Body of the doubly nested loop of `knapsack` at indices `(k, x)`:
`S[k][x] = S[k-1][x]`, then
`if w[k] < x and S[k-1][x-w[k]] + v[k] > S[k][x]: S[k][x] = S[k-1][x-w[k]] + v[k]`.
The accesses `w[k]` (out of range when `len(w) ≤ k`) and `S[k-1][x - w[k]]`
(out of range when `w[k]` is negative enough) can raise `IndexError`,
embedded as `none`; when `w[k] < x` the index `x - w[k]` is a positive
integer, so no Python negative-index wrap-around can occur. -/
def knapCell (w v : List Int) (k x : Nat) (S : List (List Int)) :
    Option (List (List Int)) := do
  let row ← S.get? k
  let rowPrev ← S.get? (k - 1)
  let base ← rowPrev.get? x
  let wk ← w.get? k
  let vk ← v.get? k
  if wk < (x : Int) then do
    let included ← rowPrev.get? ((x : Int) - wk).toNat
    let newv := if included + vk > base then included + vk else base
    pure (S.set k (row.set x newv))
  else
    pure (S.set k (row.set x base))

/-- Source `knapsack(W, w, v)`: `n = len(v)`,
`S = [[0 for x in range(W)] for k in range(n)]`, then
`for x in range(1, W): for k in range(1, n): ...` (body `knapCell`) and
return `S`.  Python `range` of a non-positive bound is empty, hence the
`toNat` truncations.  `none` models an uncaught `IndexError`. -/
def knapsack (W : Int) (w v : List Int) : Option (List (List Int)) :=
  let n := v.length
  let S0 : List (List Int) := List.replicate n (List.replicate W.toNat 0)
  (List.range' 1 (W.toNat - 1)).foldlM
    (fun S x => (List.range' 1 (n - 1)).foldlM (fun S k => knapCell w v k x S) S)
    S0

/-! ### Reference (specification-side) definitions -/

/-- Reference predicate: the list is strictly increasing.  Used only to
state the reference notion of the true LIS length. -/
def strictlyInc : List Int → Bool
  | [] => true
  | [_] => true
  | a :: b :: rest => decide (a < b) && strictlyInc (b :: rest)

/-- Reference LIS length, following the words of the spec: the maximum length of
a strictly increasing subsequence of the input (brute force over all
sublists). -/
def lisSpecLen (seq : List Int) : Nat :=
  ((seq.sublists.filter strictlyInc).map List.length).foldr max 0

/-- Reference 0-1 knapsack optimum, following the words of the spec: the maximum,
over subsets of the given `(weight, value)` items whose total weight is at
most the budget `c`, of the total value of the subset (the empty subset gives 0). -/
def bestValue : List (Int × Int) → Int → Int
  | [], _ => 0
  | (wi, vi) :: rest, c =>
    if wi ≤ c then max (bestValue rest c) (bestValue rest (c - wi) + vi)
    else bestValue rest c

/-! ### Auxiliary definitions used by the proofs -/

/-- Loop invariant for the outer loop of `find_lis`: table lengths are
preserved, every stored predecessor is a valid strictly smaller index with a
strictly smaller value, `max_length` is at least 1, and `best_seq_end`, when
set, is an index `1 ≤ b < i` whose predecessor entry is set. -/
def LisInv (seq : List Int) (i : Nat) (st : LisState) : Prop :=
  st.len.length = seq.length ∧ st.prev.length = seq.length ∧ 1 ≤ st.maxLen ∧
  (∀ a j, st.prev.getD a none = some j → j < a ∧ a < i ∧ seq.getD j 0 < seq.getD a 0) ∧
  (st.best = none ∨ ∃ b, st.best = some b ∧ 1 ≤ b ∧ b < i ∧ b < seq.length ∧
    ∃ j, st.prev.getD b none = some j)

/-- The per-cell recurrence of the final knapsack table: row 0 and column 0
stay at their initial zeros, and otherwise the cell keeps the exclude-item
baseline `S[k-1][x]` unless `w[k] < x` and the including value
`S[k-1][x - w[k]] + v[k]` is strictly larger. -/
def cellVal (w v : List Int) : Nat → Nat → Int
  | 0, _ => 0
  | _ + 1, 0 => 0
  | k + 1, x + 1 =>
    let base := cellVal w v k (x + 1)
    let wk := w.getD (k + 1) 0
    let vk := v.getD (k + 1) 0
    let inc := cellVal w v k (((x + 1 : Int) - wk).toNat) + vk
    if wk < (x + 1 : Int) ∧ inc > base then inc else base

/-- Partially filled table during the nested loops: all columns `< x` hold
their final values, column `x` holds final values in rows `≤ r` and the
initial zero below, and columns `> x` are still zero. -/
def mtab (w v : List Int) (n Wn x r : Nat) : List (List Int) :=
  (List.range n).map fun k =>
    (List.range Wn).map fun y =>
      if y < x ∨ (y = x ∧ k ≤ r) then cellVal w v k y else 0

/-! ### Lemmas about the Fibonacci generators -/

lemma getD_map_fib_range (n k : Nat) (h : k < n) :
    ((List.range n).map fib).getD k 0 = fib k := by
  rw [List.getD_eq_getElem?_getD, List.getElem?_map, List.getElem?_range h]
  rfl

/-- The tabulated loop produces exactly the values of the naive recursion. -/
lemma dp_fold_eq (n : Nat) :
    (List.range n).foldl
      (fun fibs i =>
        if i < 2 then fibs ++ [i]
        else fibs ++ [fibs.getD (i - 2) 0 + fibs.getD (i - 1) 0]) []
      = (List.range n).map fib := by
  induction n with
  | zero => rfl
  | succ m ih =>
    rw [List.range_succ, List.foldl_append, List.map_append, ih]
    simp only [List.foldl_cons, List.foldl_nil]
    by_cases hm : m < 2
    · interval_cases m <;> rfl
    · simp only [if_neg hm]
      rw [getD_map_fib_range m (m - 2) (by omega), getD_map_fib_range m (m - 1) (by omega)]
      congr 1
      obtain ⟨t, rfl⟩ : ∃ t, m = t + 2 := ⟨m - 2, by omega⟩
      show [fib t + fib (t + 1)] = [fib (t + 2)]
      rw [show fib (t + 2) = fib (t + 1) + fib t from rfl, Nat.add_comm]

lemma all_fib_eq_dp (n : Int) : all_fib n = all_fib_dp n :=
  (dp_fold_eq n.toNat).symm

/-! ### Lemmas about the inner scan of `find_lis`

The inner scan is a fold of `lisScanStep` over the descending index list.
`lisScan_spec` characterises it completely: the first component is the best
extension found so far (monotone, an upper bound for every valid candidate),
and either no update ever fired, or the second component records the
*largest* valid index attaining the maximum (a later, smaller index only
overwrites on a strict improvement). -/

lemma lisScan_spec (seq : List Int) (len : List Nat) (i : Nat) :
    ∀ (t : Nat) (st : Nat × Option Nat),
      st.1 ≤ (((List.range t).reverse).foldl (lisScanStep seq len i) st).1 ∧
      (∀ j, j < t → seq.getD j 0 < seq.getD i 0 →
        len.getD j 0 + 1 ≤ (((List.range t).reverse).foldl (lisScanStep seq len i) st).1) ∧
      ((((List.range t).reverse).foldl (lisScanStep seq len i) st = st ∧
          ∀ j, j < t → seq.getD j 0 < seq.getD i 0 → len.getD j 0 + 1 ≤ st.1) ∨
       (∃ j₀, j₀ < t ∧ seq.getD j₀ 0 < seq.getD i 0 ∧
          (((List.range t).reverse).foldl (lisScanStep seq len i) st).1 = len.getD j₀ 0 + 1 ∧
          (((List.range t).reverse).foldl (lisScanStep seq len i) st).2 = some j₀ ∧
          st.1 < len.getD j₀ 0 + 1 ∧
          ∀ j, j₀ < j → j < t → seq.getD j 0 < seq.getD i 0 →
            len.getD j 0 < len.getD j₀ 0)) := by
  intro t
  induction t with
  | zero =>
    intro st
    refine ⟨le_refl _, ?_, Or.inl ⟨rfl, ?_⟩⟩ <;> (intro j hj; omega)
  | succ m ih =>
    intro st
    have hrev : (List.range (m + 1)).reverse = m :: (List.range m).reverse := by
      rw [List.range_succ, List.reverse_append]; rfl
    rw [hrev, List.foldl_cons]
    by_cases hc : len.getD m 0 + 1 > st.1 ∧ seq.getD m 0 < seq.getD i 0
    · have hstep : lisScanStep seq len i st m = (len.getD m 0 + 1, some m) := by
        rw [lisScanStep, if_pos hc]
      rw [hstep]
      obtain ⟨h1, h2, h3⟩ := ih (len.getD m 0 + 1, some m)
      simp only at h1
      refine ⟨?_, ?_, ?_⟩
      · omega
      · intro j hj hvj
        rcases Nat.lt_succ_iff_lt_or_eq.mp hj with hjm | rfl
        · exact h2 j hjm hvj
        · exact h1
      · rcases h3 with ⟨heq, hall⟩ | ⟨j₀, hj₀t, hj₀v, hfst, hsnd, hlt, htie⟩
        · right
          refine ⟨m, Nat.lt_succ_self m, hc.2, ?_, ?_, hc.1, ?_⟩
          · rw [heq]
          · rw [heq]
          · intro j hmj hjm hvj; omega
        · right
          simp only at hlt
          refine ⟨j₀, Nat.lt_succ_of_lt hj₀t, hj₀v, hfst, hsnd, by omega, ?_⟩
          intro j hj₀j hjm hvj
          rcases Nat.lt_succ_iff_lt_or_eq.mp hjm with hjm' | rfl
          · exact htie j hj₀j hjm' hvj
          · omega
    · have hstep : lisScanStep seq len i st m = st := by
        rw [lisScanStep, if_neg hc]
      rw [hstep]
      obtain ⟨h1, h2, h3⟩ := ih st
      refine ⟨h1, ?_, ?_⟩
      · intro j hj hvj
        rcases Nat.lt_succ_iff_lt_or_eq.mp hj with hjm | rfl
        · exact h2 j hjm hvj
        · have hle : len.getD j 0 + 1 ≤ st.1 := by
            by_contra hgt
            exact hc ⟨by omega, hvj⟩
          omega
      · rcases h3 with ⟨heq, hall⟩ | ⟨j₀, hj₀t, hj₀v, hfst, hsnd, hlt, htie⟩
        · left
          refine ⟨heq, ?_⟩
          intro j hj hvj
          rcases Nat.lt_succ_iff_lt_or_eq.mp hj with hjm | rfl
          · exact hall j hjm hvj
          · by_contra hgt
            exact hc ⟨by omega, hvj⟩
        · right
          refine ⟨j₀, Nat.lt_succ_of_lt hj₀t, hj₀v, hfst, hsnd, hlt, ?_⟩
          intro j hj₀j hjm hvj
          rcases Nat.lt_succ_iff_lt_or_eq.mp hjm with hjm' | rfl
          · exact htie j hj₀j hjm' hvj
          · have hle : len.getD j 0 + 1 ≤ st.1 := by
              by_contra hgt
              exact hc ⟨by omega, hvj⟩
            omega

/-- When the inner scan stores a predecessor `j₀`, it is a valid candidate
(`j₀ < i`, strictly smaller value) attaining the maximal extension, and among
valid candidates with the same table entry it is the one with the largest
index. -/
lemma lisInner_some (seq : List Int) (len : List Nat) (i li : Nat) (j₀ : Nat)
    (h : lisInner seq len i = (li, some j₀)) :
    j₀ < i ∧ seq.getD j₀ 0 < seq.getD i 0 ∧ li = len.getD j₀ 0 + 1 ∧
    (∀ j, j < i → seq.getD j 0 < seq.getD i 0 → len.getD j 0 + 1 ≤ li) ∧
    (∀ j, j < i → seq.getD j 0 < seq.getD i 0 → len.getD j 0 = len.getD j₀ 0 → j ≤ j₀) := by
  obtain ⟨h1, h2, h3⟩ := lisScan_spec seq len i i (0, none)
  rw [lisInner] at h
  rw [h] at h1 h2 h3
  rcases h3 with ⟨heq, hall⟩ | ⟨j₁, hj₁t, hj₁v, hfst, hsnd, hlt, htie⟩
  · simp at heq
  · simp only at hfst hsnd
    obtain rfl : j₁ = j₀ := by
      have hs := hsnd
      simp at hs
      omega
    refine ⟨hj₁t, hj₁v, hfst, ?_, ?_⟩
    · intro j hj hvj
      simpa using h2 j hj hvj
    · intro j hj hvj hlen
      by_contra hgt
      have := htie j (by omega) hj hvj
      omega

/-- When the inner scan stores no predecessor, the found length is `0` and no
earlier element is strictly smaller. -/
lemma lisInner_none (seq : List Int) (len : List Nat) (i li : Nat)
    (h : lisInner seq len i = (li, none)) :
    li = 0 ∧ ∀ j, j < i → ¬ seq.getD j 0 < seq.getD i 0 := by
  obtain ⟨h1, h2, h3⟩ := lisScan_spec seq len i i (0, none)
  rw [lisInner] at h
  rw [h] at h1 h2 h3
  rcases h3 with ⟨heq, hall⟩ | ⟨j₁, hj₁t, hj₁v, hfst, hsnd, hlt, htie⟩
  · have hli : li = 0 := by
      have := congrArg Prod.fst heq
      simpa using this
    refine ⟨hli, ?_⟩
    intro j hj hvj
    have := hall j hj hvj
    simp only at this
    omega
  · simp at hsnd

/-! ### Lemmas about the outer loop and reconstruction of `find_lis` -/

/-- Mapping a strictly increasing list of in-range indices over a list picks
out a sublist. -/
lemma map_getD_sublist : ∀ (seq : List Int) (is : List Nat),
    (∀ t ∈ is, t < seq.length) → is.Pairwise (· < ·) →
    List.Sublist (is.map (fun t => seq.getD t 0)) seq := by
  intro seq
  induction seq with
  | nil =>
    intro is hb _
    have hnil : is = [] := by
      cases is with
      | nil => rfl
      | cons t ts => exact absurd (hb t (List.mem_cons_self t ts)) (by simp)
    subst hnil; simp
  | cons a rest ih =>
    intro is hb hp
    cases is with
    | nil => simp
    | cons t ts =>
      have hts : ∀ x ∈ ts, t < x := fun x hx => (List.pairwise_cons.mp hp).1 x hx
      have hpts : ts.Pairwise (· < ·) := (List.pairwise_cons.mp hp).2
      cases t with
      | zero =>
        have hmap : ts.map (fun t => (a :: rest).getD t 0)
            = (ts.map (fun t => t - 1)).map (fun t => rest.getD t 0) := by
          rw [List.map_map]
          apply List.map_congr_left
          intro x hx
          obtain ⟨y, rfl⟩ : ∃ y, x = y + 1 := ⟨x - 1, by have := hts x hx; omega⟩
          simp [List.getD_cons_succ]
        simp only [List.map_cons, List.getD_cons_zero]
        rw [hmap]
        refine List.Sublist.cons₂ a (ih _ ?_ ?_)
        · intro x hx
          obtain ⟨y, hy, rfl⟩ := List.mem_map.mp hx
          have h1 := hb y (List.mem_cons_of_mem _ hy)
          have h2 := hts y hy
          simp only [List.length_cons] at h1
          omega
        · refine List.pairwise_map.mpr ?_
          refine List.Pairwise.imp_of_mem ?_ hpts
          intro x y hx _ hxy
          have := hts x hx
          omega
      | succ u =>
        have hge : ∀ x ∈ (u + 1) :: ts, 1 ≤ x := by
          intro x hx
          rcases List.mem_cons.mp hx with rfl | hx'
          · omega
          · have := hts x hx'; omega
        have hmap : ((u + 1) :: ts).map (fun t => (a :: rest).getD t 0)
            = (((u + 1) :: ts).map (fun t => t - 1)).map (fun t => rest.getD t 0) := by
          rw [List.map_map]
          apply List.map_congr_left
          intro x hx
          obtain ⟨y, rfl⟩ : ∃ y, x = y + 1 := ⟨x - 1, by have := hge x hx; omega⟩
          simp [List.getD_cons_succ]
        rw [hmap]
        refine List.Sublist.cons a (ih _ ?_ ?_)
        · intro x hx
          obtain ⟨y, hy, rfl⟩ := List.mem_map.mp hx
          have h1 := hb y hy
          have h2 := hge y hy
          simp only [List.length_cons] at h1
          omega
        · refine List.pairwise_map.mpr ?_
          refine List.Pairwise.imp_of_mem ?_ hp
          intro x y hx _ hxy
          have := hge x hx
          omega

/-- Unfolding equation of `collect` in the non-trivial case. -/
lemma collect_cons (seq : List Int) (prev : List (Option Nat)) (fuel e : Nat) :
    collect seq prev (fuel + 1) (some e)
      = seq.getD e 0 :: collect seq prev fuel (prev.getD e none) := rfl

/-- The reconstruction loop follows a chain of strictly decreasing indices
whose values strictly decrease as well, starting at `e`. -/
lemma collect_spec (seq : List Int) (prev : List (Option Nat))
    (hprev : ∀ a j, prev.getD a none = some j → j < a ∧ seq.getD j 0 < seq.getD a 0) :
    ∀ e fuel, e < fuel →
      ∃ is : List Nat, collect seq prev fuel (some e) = is.map (fun t => seq.getD t 0) ∧
        is.head? = some e ∧ is.Pairwise (fun a b => b < a) ∧ (∀ t ∈ is, t ≤ e) ∧
        List.Chain' (fun a b : Int => b < a) (collect seq prev fuel (some e)) := by
  intro e
  induction e using Nat.strong_induction_on with
  | _ e ih =>
    intro fuel hef
    obtain ⟨f, rfl⟩ : ∃ f, fuel = f + 1 := ⟨fuel - 1, by omega⟩
    rw [collect_cons]
    rcases hpe : prev.getD e none with _ | j
    · refine ⟨[e], by simp [collect], by simp, by simp, by simp, ?_⟩
      simp [collect]
    · obtain ⟨hje, hval⟩ := hprev e j hpe
      have hjf : j < f := by omega
      obtain ⟨is, hmap, hhead, hpair, hbound, hchain⟩ := ih j hje f hjf
      obtain ⟨g, rfl⟩ : ∃ g, f = g + 1 := ⟨f - 1, by omega⟩
      rw [collect_cons] at hmap hchain ⊢
      refine ⟨e :: is, ?_, by simp, ?_, ?_, ?_⟩
      · simp only [List.map_cons, hmap]
      · rw [List.pairwise_cons]
        exact ⟨fun t ht => by have := hbound t ht; omega, hpair⟩
      · intro t ht
        rcases List.mem_cons.mp ht with rfl | ht'
        · omega
        · have := hbound t ht'; omega
      · rw [List.chain'_cons]
        exact ⟨hval, hchain⟩

lemma lisInit_inv (seq : List Int) : LisInv seq 1 (lisInit seq) := by
  refine ⟨by simp [lisInit], by simp [lisInit], le_refl 1, ?_, Or.inl rfl⟩
  intro a j h
  rw [lisInit] at h
  simp only at h
  rw [List.getD_eq_getElem?_getD, List.getElem?_replicate] at h
  by_cases ha : a < seq.length <;> simp [ha] at h

/-- Unfolding of one outer-loop iteration once the result of the inner scan is
known. -/
lemma lisStep_eq (seq : List Int) (st : LisState) (i li : Nat) (pi : Option Nat)
    (hr : lisInner seq st.len i = (li, pi)) :
    lisStep seq st i = if li > st.maxLen
      then ⟨st.len.set i li, st.prev.set i pi, li, some i⟩
      else ⟨st.len.set i li, st.prev.set i pi, st.maxLen, st.best⟩ := by
  simp only [lisStep, hr]

lemma lisStep_inv (seq : List Int) (st : LisState) (i : Nat) (hi : 1 ≤ i)
    (hin : i < seq.length) (h : LisInv seq i st) :
    LisInv seq (i + 1) (lisStep seq st i) := by
  obtain ⟨hl, hp, hm, hprev, hbest⟩ := h
  rcases hr : lisInner seq st.len i with ⟨li, pi⟩
  have hps : ∀ a j, (st.prev.set i pi).getD a none = some j →
      j < a ∧ a < i + 1 ∧ seq.getD j 0 < seq.getD a 0 := by
    intro a j ha
    rw [List.getD_eq_getElem?_getD] at ha
    by_cases hai : a = i
    · subst hai
      rw [List.getElem?_set_self (show a < st.prev.length by omega)] at ha
      simp only [Option.getD_some] at ha
      subst ha
      obtain ⟨h1, h2, _, _, _⟩ := lisInner_some seq st.len a li j hr
      exact ⟨h1, by omega, h2⟩
    · rw [List.getElem?_set_ne (fun hx => hai hx.symm)] at ha
      rw [← List.getD_eq_getElem?_getD] at ha
      obtain ⟨h1, h2, h3⟩ := hprev a j ha
      exact ⟨h1, by omega, h3⟩
  rw [lisStep_eq seq st i li pi hr]
  by_cases hgt : li > st.maxLen
  · rw [if_pos hgt]
    refine ⟨by simpa using hl, by simpa using hp, show 1 ≤ li by omega, hps, Or.inr ?_⟩
    refine ⟨i, rfl, hi, by omega, hin, ?_⟩
    rcases hpi : pi with _ | j
    · subst hpi
      obtain ⟨h0, _⟩ := lisInner_none seq st.len i li hr
      omega
    · refine ⟨j, ?_⟩
      rw [List.getD_eq_getElem?_getD,
        List.getElem?_set_self (show i < st.prev.length by omega)]
      rfl
  · rw [if_neg hgt]
    refine ⟨by simpa using hl, by simpa using hp, show 1 ≤ st.maxLen by omega, hps, ?_⟩
    rcases hbest with hb | ⟨b, hb, h1, h2, h3, j, h4⟩
    · exact Or.inl hb
    · refine Or.inr ⟨b, hb, h1, by omega, h3, j, ?_⟩
      rw [List.getD_eq_getElem?_getD, List.getElem?_set_ne (by omega)]
      rw [← List.getD_eq_getElem?_getD]
      exact h4

lemma lisFold_inv (seq : List Int) : ∀ (b a : Nat) (st : LisState), 1 ≤ a →
    a + b ≤ seq.length → LisInv seq a st →
    LisInv seq (a + b) ((List.range' a b).foldl (lisStep seq) st) := by
  intro b
  induction b with
  | zero =>
    intro a st _ _ h
    simpa using h
  | succ m ih =>
    intro a st ha hab h
    rw [List.range'_succ, List.foldl_cons]
    have hstep := lisStep_inv seq st a ha (by omega) h
    have := ih (a + 1) (lisStep seq st a) (by omega) (by omega) hstep
    have heq : a + 1 + m = a + (m + 1) := by omega
    rwa [heq] at this

/-- The invariant holds for the final tables of `find_lis` on a non-empty
input. -/
lemma lisTables_inv (seq : List Int) (hne : 1 ≤ seq.length) :
    LisInv seq seq.length (lisTables seq) := by
  have := lisFold_inv seq (seq.length - 1) 1 (lisInit seq) (le_refl 1)
    (by omega) (lisInit_inv seq)
  rw [lisTables]
  have heq : 1 + (seq.length - 1) = seq.length := by omega
  rwa [heq] at this

lemma collect_none (seq : List Int) (prev : List (Option Nat)) (fuel : Nat) :
    collect seq prev fuel none = [] := by
  cases fuel <;> rfl

/-! ### Claims about the Fibonacci generators -/

/-- Claim C9 (confirmed): the naive unmemoized-recursion variant `all_fib`
and the tabulated variant `all_fib_dp` return identical sequences for every
`0 ≤ n ≤ 25` (they agree for all `n`, proved via `all_fib_eq_dp`); both
return `[]` for `n = 0`, `[0]` for `n = 1`, and
`[0,1,1,2,3,5,8,13,21,34]` for `n = 10`. -/
theorem fibonacci_variants_agree :
    (∀ n : Int, 0 ≤ n → n ≤ 25 → all_fib n = all_fib_dp n) ∧
    all_fib 0 = [] ∧ all_fib_dp 0 = [] ∧ all_fib 1 = [0] ∧ all_fib_dp 1 = [0] ∧
    all_fib 10 = [0, 1, 1, 2, 3, 5, 8, 13, 21, 34] ∧
    all_fib_dp 10 = [0, 1, 1, 2, 3, 5, 8, 13, 21, 34] := by
  refine ⟨fun n _ _ => all_fib_eq_dp n, ?_, ?_, ?_, ?_, ?_, ?_⟩ <;> decide

/-- Witness for C9 at `n = 3`. -/
theorem fibonacci_variants_agree_witness : all_fib 3 = all_fib_dp 3 :=
  fibonacci_variants_agree.1 3 (by decide) (by decide)

/-- Claim C7 (corrected), counterexample: on the negative input `-5` the
generators do not fail at all — Python `range(-5)` is empty, so both
variants run zero loop iterations and return the empty list instead of
signalling `InvalidArgument`. -/
theorem fibonacci_negative_no_error_cex :
    all_fib (-5) = [] ∧ all_fib_dp (-5) = [] := by
  exact ⟨rfl, rfl⟩

/-- Claim C7 (corrected, amended): for every `n ≥ 0` the generators return
exactly `n` values, but a negative `n` is not rejected: both variants
return the empty sequence without any error. -/
theorem fibonacci_length_and_negative :
    (∀ n : Int, 0 ≤ n →
      ((all_fib n).length : Int) = n ∧ ((all_fib_dp n).length : Int) = n) ∧
    (∀ n : Int, n < 0 → all_fib n = [] ∧ all_fib_dp n = []) := by
  constructor
  · intro n hn
    constructor
    · simp [all_fib, Int.toNat_of_nonneg hn]
    · rw [← all_fib_eq_dp]
      simp [all_fib, Int.toNat_of_nonneg hn]
  · intro n hn
    have h0 : n.toNat = 0 := Int.toNat_of_nonpos (le_of_lt hn)
    refine ⟨?_, ?_⟩
    · simp [all_fib, h0]
    · rw [← all_fib_eq_dp]
      simp [all_fib, h0]

/-- Witness for the amended claim of C7 at `n = 4` and `n = -2`. -/
theorem fibonacci_length_and_negative_witness :
    ((all_fib 4).length : Int) = 4 ∧ all_fib (-2) = [] :=
  ⟨(fibonacci_length_and_negative.1 4 (by decide)).1,
   (fibonacci_length_and_negative.2 (-2) (by decide)).1⟩

/-! ### Claims about `find_lis` -/

/-- Claim C1 (code bug): the length of the result of `find_lis` does *not* equal
the true maximum length of a strictly increasing subsequence.  The length
table is initialised to `0` (not `1`) and `best_seq_end` starts at `-1` and
is only updated on `length[i] > max_length = 1`, so `find([5])` returns `[]`
(not `[5]`), `find([5,4,3,2,1])` returns `[]` (length 0, not 1), and even
`find([5,3,4])` returns `[]` although `[3,4]` is a strictly increasing
subsequence of length 2 (`lisSpecLen` is the reference LIS length). -/
theorem find_lis_misses_singleton_lis :
    find_lis [5] = some [] ∧ find_lis [5, 4, 3, 2, 1] = some [] ∧
    find_lis [5, 3, 4] = some [] ∧
    lisSpecLen [5] = 1 ∧ lisSpecLen [5, 4, 3, 2, 1] = 1 ∧ lisSpecLen [5, 3, 4] = 2 := by
  decide

/-- Claim C2 (corrected), counterexample: on the empty sequence `find_lis`
does not return the empty sequence — the statement `prev[0] = -1` indexes
into an empty list and raises `IndexError` (embedded as `none`). -/
theorem find_lis_empty_input_errors :
    find_lis [] = none ∧ find_lis [] ≠ some [] := by
  decide

/-- Claim C2 (corrected, amended): `find_lis` never fails on a *non-empty*
well-typed input sequence; on the empty sequence it raises `IndexError`
instead of returning the empty sequence. -/
theorem find_lis_total_on_nonempty (seq : List Int) (h : seq ≠ []) :
    (find_lis seq).isSome := by
  simp only [find_lis]
  rw [if_neg (fun hx => h (List.length_eq_zero.mp hx))]
  rfl

/-- Witness for the amended claim of C2 on `[5]`. -/
theorem find_lis_total_on_nonempty_witness : (find_lis [5]).isSome :=
  find_lis_total_on_nonempty [5] (by decide)

/-- Claim C4 (corrected), counterexample: on the example given in the spec the
result is not `[10,22,33,50,60,80]` (the inner scan is descending, so the
later tie `41` wins over `50`). -/
theorem find_lis_example_not_spec_output :
    find_lis [10, 22, 9, 33, 21, 50, 41, 60, 80] ≠ some [10, 22, 33, 50, 60, 80] := by
  decide

/-- Claim C4 (corrected, amended): `find([10,22,9,33,21,50,41,60,80])`
returns `[10,22,33,41,60,80]`, and in general the scan over candidate
predecessors runs *descending* from `i-1` down to `0` with the first strict
improvement winning, so when several candidates give an equal best extension
the *largest*-index `j` is the one kept in the predecessor table. -/
theorem find_lis_descending_tiebreak :
    find_lis [10, 22, 9, 33, 21, 50, 41, 60, 80] = some [10, 22, 33, 41, 60, 80] ∧
    ∀ (seq : List Int) (len : List Nat) (i li j₀ : Nat),
      lisInner seq len i = (li, some j₀) →
      j₀ < i ∧ seq.getD j₀ 0 < seq.getD i 0 ∧ li = len.getD j₀ 0 + 1 ∧
      (∀ j, j < i → seq.getD j 0 < seq.getD i 0 → len.getD j 0 + 1 ≤ li) ∧
      (∀ j, j < i → seq.getD j 0 < seq.getD i 0 → len.getD j 0 = len.getD j₀ 0 → j ≤ j₀) :=
  ⟨by decide, fun seq len i li j₀ h => lisInner_some seq len i li j₀ h⟩

/-- Witness for the amended claim of C4: on `seq = [1,2]`, `len = [1,0]`, `i = 1`
the scan returns `(2, some 0)` and the characterisation applies. -/
theorem find_lis_descending_tiebreak_witness :
    0 < 1 ∧ ([1, 2] : List Int).getD 0 0 < ([1, 2] : List Int).getD 1 0 := by
  have h := find_lis_descending_tiebreak.2 [1, 2] [1, 0] 1 2 0 (by decide)
  exact ⟨h.1, h.2.1⟩

/-- Claim C8 (confirmed): whenever `find_lis` returns a result, that result
is strictly increasing and is a subsequence of the input (its elements
appear in the input in the same relative order). -/
theorem find_lis_increasing_sublist (seq : List Int) (r : List Int)
    (h : find_lis seq = some r) :
    List.Chain' (· < ·) r ∧ List.Sublist r seq := by
  by_cases hz : seq.length = 0
  · rw [find_lis, if_pos hz] at h
    cases h
  · simp only [find_lis, if_neg hz] at h
    obtain ⟨hl, hp, hm, hprev, hbest⟩ := lisTables_inv seq (by omega)
    have hprev' : ∀ a j, (lisTables seq).prev.getD a none = some j →
        j < a ∧ seq.getD j 0 < seq.getD a 0 :=
      fun a j hx => ⟨(hprev a j hx).1, (hprev a j hx).2.2⟩
    rcases hbest with hb | ⟨b, hb, hb1, hbn, _, j, hbj⟩
    · rw [hb, collect_none] at h
      obtain rfl : r = [] := by injection h with h'; exact h'.symm
      exact ⟨List.chain'_nil, List.nil_sublist seq⟩
    · rw [hb] at h
      obtain ⟨is, hmap, hhead, hpair, hbound, hchain⟩ :=
        collect_spec seq (lisTables seq).prev hprev' b seq.length hbn
      obtain rfl : r = (collect seq (lisTables seq).prev seq.length (some b)).reverse := by
        injection h with h'; exact h'.symm
      constructor
      · rw [List.chain'_reverse]
        exact hchain
      · rw [hmap, ← List.map_reverse]
        refine map_getD_sublist seq is.reverse ?_ ?_
        · intro t ht
          have := hbound t (List.mem_reverse.mp ht)
          omega
        · rw [List.pairwise_reverse]
          exact hpair

/-- Witness for C8 on `[1, 2]`. -/
theorem find_lis_increasing_sublist_witness :
    List.Chain' (· < ·) ([1, 2] : List Int) ∧ List.Sublist ([1, 2] : List Int) [1, 2] :=
  find_lis_increasing_sublist [1, 2] [1, 2] (by decide)

/-- Claim C10 (confirmed): whenever `find_lis` returns a result, the result
never has exactly one element — `best_seq_end` is only set when some chain
length strictly exceeds the initial `max_length = 1`, and then the chain
from it has at least two entries. -/
theorem find_lis_never_singleton (seq : List Int) (r : List Int)
    (h : find_lis seq = some r) : r.length ≠ 1 := by
  by_cases hz : seq.length = 0
  · rw [find_lis, if_pos hz] at h
    cases h
  · simp only [find_lis, if_neg hz] at h
    obtain ⟨hl, hp, hm, hprev, hbest⟩ := lisTables_inv seq (by omega)
    rcases hbest with hb | ⟨b, hb, hb1, hbn, _, j, hbj⟩
    · rw [hb, collect_none] at h
      obtain rfl : r = [] := by injection h with h'; exact h'.symm
      simp
    · rw [hb] at h
      obtain ⟨hjb, _⟩ := hprev b j hbj
      obtain ⟨f, hf⟩ : ∃ f, seq.length = f + 1 := ⟨seq.length - 1, by omega⟩
      obtain ⟨g, hg⟩ : ∃ g, f = g + 1 := ⟨f - 1, by omega⟩
      rw [hf, collect_cons, hbj, hg, collect_cons] at h
      obtain rfl : r = _ := by injection h with h'; exact h'.symm
      simp

/-- Witness for C10 on `[1, 2]` (result `[1, 2]` has length 2). -/
theorem find_lis_never_singleton_witness : ([1, 2] : List Int).length ≠ 1 :=
  find_lis_never_singleton [1, 2] [1, 2] (by decide)

/-! ### Lemmas about `knapsack`

The nested loops write each cell `S[k][x]` (for `k ≥ 1`, `x ≥ 1`) exactly
once, reading only row `k-1` at column `x` (written earlier in the same
outer iteration, or the initial zeros for `k-1 = 0`) and at a column
`x - w[k] < x` (written in an earlier outer iteration).  Hence the final
table satisfies the recurrence `cellVal`, and the fold is simulated below
by the family of partially-filled tables `mtab`. -/

lemma cellVal_zero_col (w v : List Int) (k : Nat) : cellVal w v k 0 = 0 := by
  cases k <;> rfl

lemma cellVal_zero_row (w v : List Int) (x : Nat) : cellVal w v 0 x = 0 := rfl

lemma getElem?_map_range {α : Type} (f : Nat → α) (n a : Nat) :
    ((List.range n).map f)[a]? = if a < n then some (f a) else none := by
  by_cases h : a < n
  · rw [if_pos h, List.getElem?_map, List.getElem?_range h]
    rfl
  · rw [if_neg h, List.getElem?_eq_none]
    simp only [List.length_map, List.length_range]
    omega

lemma get?_map_range {α : Type} (f : Nat → α) (n a : Nat) (h : a < n) :
    ((List.range n).map f).get? a = some (f a) := by
  rw [List.get?_eq_getElem?, getElem?_map_range, if_pos h]

lemma mtab_length (w v : List Int) (n Wn x r : Nat) :
    (mtab w v n Wn x r).length = n := by
  rw [mtab]
  simp

/-- Two stages of `mtab` agree as soon as their cell values agree. -/
lemma mtab_ext (w v : List Int) (n Wn : Nat) {x r x' r' : Nat}
    (h : ∀ k y, k < n → y < Wn →
      (if y < x ∨ (y = x ∧ k ≤ r) then cellVal w v k y else 0)
        = (if y < x' ∨ (y = x' ∧ k ≤ r') then cellVal w v k y else 0)) :
    mtab w v n Wn x r = mtab w v n Wn x' r' := by
  rw [mtab, mtab]
  apply List.map_congr_left
  intro k hk
  apply List.map_congr_left
  intro y hy
  exact h k y (List.mem_range.mp hk) (List.mem_range.mp hy)

lemma get?_eq_some_getD {α : Type} (l : List α) (d : α) (k : Nat) (h : k < l.length) :
    l.get? k = some (l.getD k d) := by
  rw [List.get?_eq_getElem?, List.getElem?_eq_getElem h, List.getD_eq_getElem?_getD,
    List.getElem?_eq_getElem h]
  rfl

/-- Writing the final value of cell `(k, x)` into the stage-`(x, k-1)` table
yields the stage-`(x, k)` table. -/
lemma mtab_set (w v : List Int) (n Wn x k : Nat) (hk : 1 ≤ k) (hkn : k < n)
    (hxW : x < Wn) :
    (mtab w v n Wn x (k - 1)).set k
      (((List.range Wn).map fun y =>
          if y < x ∨ (y = x ∧ k ≤ k - 1) then cellVal w v k y else 0).set x
        (cellVal w v k x))
      = mtab w v n Wn x k := by
  apply List.ext_getElem?
  intro a
  by_cases hak : a = k
  · subst hak
    rw [List.getElem?_set_self (by rw [mtab_length]; exact hkn)]
    rw [mtab, getElem?_map_range, if_pos hkn]
    congr 1
    apply List.ext_getElem?
    intro b
    by_cases hbx : b = x
    · subst hbx
      rw [List.getElem?_set_self (by simp only [List.length_map, List.length_range]; exact hxW)]
      rw [getElem?_map_range, if_pos hxW]
      congr 1
      rw [if_pos (Or.inr ⟨rfl, le_refl a⟩)]
    · rw [List.getElem?_set_ne (fun hx => hbx hx.symm)]
      rw [getElem?_map_range, getElem?_map_range]
      by_cases hb : b < Wn
      · rw [if_pos hb, if_pos hb]
        congr 1
        by_cases hc : b < x
        · rw [if_pos (Or.inl hc), if_pos (Or.inl hc)]
        · rw [if_neg (by omega), if_neg (by omega)]
      · rw [if_neg hb, if_neg hb]
  · rw [List.getElem?_set_ne (fun hx => hak hx.symm)]
    rw [mtab, mtab, getElem?_map_range, getElem?_map_range]
    by_cases ha : a < n
    · rw [if_pos ha, if_pos ha]
      congr 1
      apply List.map_congr_left
      intro y _
      by_cases hc : y < x
      · rw [if_pos (Or.inl hc), if_pos (Or.inl hc)]
      · by_cases hd : y = x ∧ a ≤ k - 1
        · rw [if_pos (Or.inr hd), if_pos (Or.inr ⟨hd.1, by omega⟩)]
        · rw [if_neg (by omega), if_neg (by omega)]
    · rw [if_neg ha, if_neg ha]

/-- The recurrence of `cellVal` at an interior cell, stated with `k - 1` and
an `Int` subtraction as the loop body computes them. -/
lemma cellVal_eq (w v : List Int) (k x : Nat) (hk : 1 ≤ k) (hx : 1 ≤ x) :
    cellVal w v k x
      = if w.getD k 0 < (x : Int) ∧
            cellVal w v (k - 1) (((x : Int) - w.getD k 0).toNat) + v.getD k 0
              > cellVal w v (k - 1) x
        then cellVal w v (k - 1) (((x : Int) - w.getD k 0).toNat) + v.getD k 0
        else cellVal w v (k - 1) x := by
  obtain ⟨k', rfl⟩ : ∃ k', k = k' + 1 := ⟨k - 1, by omega⟩
  obtain ⟨x', rfl⟩ : ∃ x', x = x' + 1 := ⟨x - 1, by omega⟩
  simp only [cellVal, Nat.add_sub_cancel]
  norm_cast

/-- One execution of the loop body advances the partial table one row. -/
lemma knapCell_mtab (w v : List Int) (Wn : Nat) (hlen : w.length = v.length)
    (hw : ∀ a ∈ w, 0 ≤ a) (k x : Nat) (hk : 1 ≤ k) (hkn : k < v.length)
    (hx : 1 ≤ x) (hxW : x < Wn) :
    knapCell w v k x (mtab w v v.length Wn x (k - 1))
      = some (mtab w v v.length Wn x k) := by
  have hkw : k < w.length := by omega
  have hwk0 : 0 ≤ w.getD k 0 := by
    have hmem : w.getD k 0 ∈ w := by
      rw [List.getD_eq_getElem?_getD, List.getElem?_eq_getElem hkw]
      exact List.getElem_mem hkw
    exact hw _ hmem
  have hrowk : (mtab w v v.length Wn x (k - 1)).get? k
      = some ((List.range Wn).map fun y =>
          if y < x ∨ (y = x ∧ k ≤ k - 1) then cellVal w v k y else 0) := by
    rw [mtab, get?_map_range _ _ _ hkn]
  have hrowp : (mtab w v v.length Wn x (k - 1)).get? (k - 1)
      = some ((List.range Wn).map fun y =>
          if y < x ∨ (y = x ∧ k - 1 ≤ k - 1) then cellVal w v (k - 1) y else 0) := by
    rw [mtab, get?_map_range _ _ _ (by omega)]
  have hbase : ((List.range Wn).map fun y =>
      if y < x ∨ (y = x ∧ k - 1 ≤ k - 1) then cellVal w v (k - 1) y else 0).get? x
      = some (cellVal w v (k - 1) x) := by
    rw [get?_map_range _ _ _ hxW, if_pos (Or.inr ⟨rfl, le_refl _⟩)]
  have hwget : w.get? k = some (w.getD k 0) := get?_eq_some_getD w 0 k hkw
  have hvget : v.get? k = some (v.getD k 0) := get?_eq_some_getD v 0 k hkn
  rw [knapCell, hrowk, hrowp]
  simp only [Option.bind_eq_bind, Option.some_bind, hbase, hwget, hvget, Option.pure_def]
  have hcell := cellVal_eq w v k x hk hx
  by_cases hwx : w.getD k 0 < (x : Int)
  · rw [if_pos hwx]
    have hidx : ((x : Int) - w.getD k 0).toNat < Wn := by omega
    have hcond : ((x : Int) - w.getD k 0).toNat < x ∨
        (((x : Int) - w.getD k 0).toNat = x ∧ k - 1 ≤ k - 1) := by
      by_cases hz : w.getD k 0 = 0
      · exact Or.inr ⟨by omega, le_refl _⟩
      · exact Or.inl (by omega)
    have hincl : ((List.range Wn).map fun y =>
        if y < x ∨ (y = x ∧ k - 1 ≤ k - 1) then cellVal w v (k - 1) y else 0).get?
          (((x : Int) - w.getD k 0).toNat)
        = some (cellVal w v (k - 1) (((x : Int) - w.getD k 0).toNat)) := by
      rw [get?_map_range _ _ _ hidx, if_pos hcond]
    simp only [hincl, Option.some_bind, Option.pure_def]
    congr 1
    have hv : (if cellVal w v (k - 1) (((x : Int) - w.getD k 0).toNat) + v.getD k 0
          > cellVal w v (k - 1) x
        then cellVal w v (k - 1) (((x : Int) - w.getD k 0).toNat) + v.getD k 0
        else cellVal w v (k - 1) x) = cellVal w v k x := by
      by_cases hB : cellVal w v (k - 1) (((x : Int) - w.getD k 0).toNat) + v.getD k 0
          > cellVal w v (k - 1) x
      · rw [if_pos hB, hcell, if_pos ⟨hwx, hB⟩]
      · rw [if_neg hB, hcell, if_neg (fun hc => hB hc.2)]
    rw [hv]
    exact mtab_set w v v.length Wn x k hk hkn hxW
  · rw [if_neg hwx]
    congr 1
    have hv : cellVal w v (k - 1) x = cellVal w v k x := by
      rw [hcell, if_neg (fun hc => hwx hc.1)]
    rw [hv]
    exact mtab_set w v v.length Wn x k hk hkn hxW

/-- The inner loop `for k in range(1, n)` fills rows `c ≤ k < c + r` of
column `x`. -/
lemma knapInner_fold (w v : List Int) (Wn : Nat) (hlen : w.length = v.length)
    (hw : ∀ a ∈ w, 0 ≤ a) (x : Nat) (hx : 1 ≤ x) (hxW : x < Wn) :
    ∀ (r c : Nat), 1 ≤ c → c + r ≤ v.length →
      (List.range' c r).foldlM (fun S k => knapCell w v k x S)
          (mtab w v v.length Wn x (c - 1))
        = some (mtab w v v.length Wn x (c - 1 + r)) := by
  intro r
  induction r with
  | zero =>
    intro c hc hcr
    simp
  | succ m ih =>
    intro c hc hcr
    have harg : c - 1 + (m + 1) = c + m := by omega
    rw [harg, List.range'_succ, List.foldlM_cons,
      knapCell_mtab w v Wn hlen hw c x hc (by omega) hx hxW]
    simp only [Option.bind_eq_bind, Option.some_bind]
    have := ih (c + 1) (by omega) (by omega)
    simpa using this

/-- Column `0` of the iteration: the table is all zeros whatever the row
marker is. -/
lemma mtab_col_zero (w v : List Int) (n Wn r : Nat) :
    mtab w v n Wn 0 r = List.replicate n (List.replicate Wn 0) := by
  rw [mtab]
  apply List.ext_getElem?
  intro a
  rw [getElem?_map_range, List.getElem?_replicate]
  by_cases ha : a < n
  · rw [if_pos ha, if_pos ha]
    congr 1
    apply List.ext_getElem?
    intro b
    rw [getElem?_map_range, List.getElem?_replicate]
    by_cases hb : b < Wn
    · rw [if_pos hb, if_pos hb]
      congr 1
      by_cases hc : b < 0 ∨ (b = 0 ∧ a ≤ r)
      · rw [if_pos hc]
        rcases hc with hc | ⟨rfl, _⟩
        · omega
        · exact cellVal_zero_col w v a
      · rw [if_neg hc]
    · rw [if_neg hb, if_neg hb]
  · rw [if_neg ha, if_neg ha]

/-- A fully processed column is also the starting state of the next one. -/
lemma mtab_next_col (w v : List Int) (n Wn a : Nat) :
    mtab w v n Wn a (n - 1) = mtab w v n Wn (a + 1) 0 := by
  apply mtab_ext
  intro k y hk hy
  by_cases h1 : y < a ∨ (y = a ∧ k ≤ n - 1)
  · rw [if_pos h1, if_pos (show y < a + 1 ∨ (y = a + 1 ∧ k ≤ 0) by omega)]
  · by_cases h2 : y = a + 1 ∧ k ≤ 0
    · rw [if_neg h1, if_pos (Or.inr h2)]
      obtain rfl : k = 0 := by omega
      rw [cellVal_zero_row]
    · rw [if_neg h1, if_neg (show ¬(y < a + 1 ∨ (y = a + 1 ∧ k ≤ 0)) by omega)]

/-- The outer loop `for x in range(1, W)` fills columns `a ≤ x < a + b`. -/
lemma knapOuter_fold (w v : List Int) (Wn : Nat) (hlen : w.length = v.length)
    (hw : ∀ a ∈ w, 0 ≤ a) :
    ∀ (b a : Nat), 1 ≤ a → a + b ≤ Wn →
      (List.range' a b).foldlM
          (fun S x => (List.range' 1 (v.length - 1)).foldlM
            (fun S k => knapCell w v k x S) S)
          (mtab w v v.length Wn a 0)
        = some (mtab w v v.length Wn (a + b) 0) := by
  intro b
  induction b with
  | zero =>
    intro a ha hab
    simp
  | succ m ih =>
    intro a ha hab
    rw [List.range'_succ, List.foldlM_cons]
    have hinner : (List.range' 1 (v.length - 1)).foldlM (fun S k => knapCell w v k a S)
        (mtab w v v.length Wn a 0)
        = some (mtab w v v.length Wn (a + 1) 0) := by
      rw [← mtab_next_col]
      cases hn : v.length with
      | zero =>
        simp [hn]
      | succ n' =>
        have := knapInner_fold w v Wn hlen hw a ha (show a < Wn by omega)
          n' 1 (le_refl 1) (by omega)
        simpa [hn] using this
    rw [hinner]
    simp only [Option.bind_eq_bind, Option.some_bind]
    have := ih (a + 1) (by omega) (by omega)
    have harg : a + 1 + m = a + (m + 1) := by omega
    rwa [harg] at this

/-- Simulation theorem: on equal-length inputs with non-negative weights the
loops never raise, and the returned table is exactly the `cellVal` table. -/
theorem knapsack_eq_mtab (W : Int) (w v : List Int) (hlen : w.length = v.length)
    (hw : ∀ a ∈ w, 0 ≤ a) :
    knapsack W w v = some (mtab w v v.length W.toNat W.toNat 0) := by
  rcases hWn : W.toNat with _ | m
  · simp only [knapsack, hWn]
    rw [mtab_col_zero]
    simp
  · simp only [knapsack, hWn]
    rw [← mtab_col_zero w v v.length (m + 1) 0]
    have hstart : mtab w v v.length (m + 1) 0 0 = mtab w v v.length (m + 1) 1 0 := by
      rw [← mtab_next_col, mtab_col_zero, mtab_col_zero]
    rw [hstart]
    have hout := knapOuter_fold w v (m + 1) hlen hw m 1 (le_refl 1) (by omega)
    have harg : 1 + m = m + 1 := by omega
    rw [harg] at hout
    simpa using hout

/-- Cell access in the returned table. -/
lemma knapsack_cell (W : Int) (w v : List Int) (S : List (List Int))
    (hlen : w.length = v.length) (hw : ∀ a ∈ w, 0 ≤ a)
    (hS : knapsack W w v = some S) (k x : Nat) (hk : k < v.length)
    (hx : x < W.toNat) :
    (S.getD k []).getD x 0 = cellVal w v k x := by
  rw [knapsack_eq_mtab W w v hlen hw] at hS
  obtain rfl : mtab w v v.length W.toNat W.toNat 0 = S := by injection hS
  have hrow : (mtab w v v.length W.toNat W.toNat 0).getD k []
      = (List.range W.toNat).map fun y =>
          if y < W.toNat ∨ (y = W.toNat ∧ k ≤ 0) then cellVal w v k y else 0 := by
    rw [mtab, List.getD_eq_getElem?_getD, getElem?_map_range, if_pos hk]
    rfl
  rw [hrow, List.getD_eq_getElem?_getD, getElem?_map_range, if_pos hx]
  simp only [Option.getD_some]
  rw [if_pos (Or.inl hx)]

/-! ### Claims about `knapsack` -/

/-- Claim C5 (confirmed): in every interior cell `(k, x)` of the returned
table, item `k` is considered only under the strict test `w[k] < x`: when
`x ≤ w[k]` (in particular when the weight equals the capacity budget `x`)
the cell keeps the exclude-item baseline `S[k-1][x]`, and in general the
cell equals the baseline unless the including value
`S[k-1][x - w[k]] + v[k]` (taken at the strictly smaller remaining budget)
is strictly larger. -/
theorem knapsack_strict_capacity_test (W : Int) (w v : List Int)
    (S : List (List Int)) (hlen : w.length = v.length)
    (hw : ∀ a ∈ w, 0 ≤ a) (hS : knapsack W w v = some S) (k x : Nat)
    (hk : 1 ≤ k) (hkn : k < v.length) (hx : 1 ≤ x) (hxW : x < W.toNat) :
    ((x : Int) ≤ w.getD k 0 →
      (S.getD k []).getD x 0 = (S.getD (k - 1) []).getD x 0) ∧
    (S.getD k []).getD x 0 =
      (if w.getD k 0 < (x : Int) ∧
          (S.getD (k - 1) []).getD (((x : Int) - w.getD k 0).toNat) 0 + v.getD k 0 >
            (S.getD (k - 1) []).getD x 0
        then (S.getD (k - 1) []).getD (((x : Int) - w.getD k 0).toNat) 0 + v.getD k 0
        else (S.getD (k - 1) []).getD x 0) := by
  have hck := knapsack_cell W w v S hlen hw hS k x hkn hxW
  have hck1 := knapsack_cell W w v S hlen hw hS (k - 1) x (by omega) hxW
  have hkw : k < w.length := by omega
  have hwk0 : 0 ≤ w.getD k 0 := by
    have hmem : w.getD k 0 ∈ w := by
      rw [List.getD_eq_getElem?_getD, List.getElem?_eq_getElem hkw]
      exact List.getElem_mem hkw
    exact hw _ hmem
  have hidx : (((x : Int) - w.getD k 0).toNat) < W.toNat := by omega
  have hck2 := knapsack_cell W w v S hlen hw hS (k - 1)
    (((x : Int) - w.getD k 0).toNat) (by omega) hidx
  constructor
  · intro hge
    rw [hck, hck1, cellVal_eq w v k x hk hx,
      if_neg (fun hc => absurd hc.1 (not_lt.mpr hge))]
  · rw [hck, hck1, hck2]
    exact cellVal_eq w v k x hk hx

/-- Witness for C5 on `knapsack(3, [0,2], [0,7])` at cell `(1, 2)`: the item
weight `2` equals the budget `2`, so the cell keeps the row-0 baseline. -/
theorem knapsack_strict_capacity_test_witness :
    (([[0, 0, 0], [0, 0, 0]] : List (List Int)).getD 1 []).getD 2 0
      = (([[0, 0, 0], [0, 0, 0]] : List (List Int)).getD 0 []).getD 2 0 :=
  (knapsack_strict_capacity_test 3 [0, 2] [0, 7] [[0, 0, 0], [0, 0, 0]]
    (by decide) (by decide) (by decide) 1 2 (by decide) (by decide)
    (by decide) (by decide)).1 (by decide)

/-- Claim C6 (corrected), counterexample: `knapsack` performs no input
validation at all.  With negative capacity `-1` it returns a table of one
empty row (Python `range(-1)` is empty) instead of failing, and with
mismatched list lengths (`len(weights) = 3 > len(values) = 2`) it silently
ignores the extra weight and returns a table. -/
theorem knapsack_no_validation_cex :
    knapsack (-1) [1] [1] = some [[]] ∧
    knapsack 3 [0, 1, 9] [0, 5] = some [[0, 0, 0], [0, 0, 5]] := by
  decide

/-- Claim C6 (corrected, amended): `knapsack` never signals
`InvalidArgument`.  For any non-positive capacity it returns a table of
`len(values)` empty rows without failing, and a negative weight is not
rejected up front — it instead causes an uncaught `IndexError` in the
middle of the computation (e.g. `knapsack(2, [0,-1], [0,7])`). -/
theorem knapsack_no_validation :
    (∀ (W : Int) (w v : List Int), W ≤ 0 →
      knapsack W w v = some (List.replicate v.length [])) ∧
    knapsack 2 [0, -1] [0, 7] = none := by
  constructor
  · intro W w v hW
    have h0 : W.toNat = 0 := Int.toNat_of_nonpos hW
    simp [knapsack, h0]
  · decide

/-- Witness for the amended claim of C6 at capacity `-3`. -/
theorem knapsack_no_validation_witness :
    knapsack (-3) [2] [5] = some (List.replicate 1 []) :=
  knapsack_no_validation.1 (-3) [2] [5] (by decide)

/-- Claim C3 (code bug): the bottom-right entry is *not* the optimum of the
full knapsack problem at capacity `W`.  With capacity `2`, weights `[0, 1]`
and values `[0, 5]` (index 0 the boundary row), the item of weight `1` fits
into capacity `2` and the optimum is `5` (`bestValue`), but the table is
all zeros.  On the run shown in the notebook (`knapsack(15, [3,9,3,6,5],
[40,45,72,77,16])`, skipping item 0) the bottom-right value is `149` while
the brute-force optimum over items 1–4 at capacity 15 is `165`. -/
theorem knapsack_bottom_right_not_optimum :
    knapsack 2 [0, 1] [0, 5] = some [[0, 0], [0, 0]] ∧
    bestValue [(1, 5)] 2 = 5 ∧
    knapsack 15 [3, 9, 3, 6, 5] [40, 45, 72, 77, 16] = some
      [[0, 0, 0, 0, 0, 0, 0, 0, 0, 0, 0, 0, 0, 0, 0],
       [0, 0, 0, 0, 0, 0, 0, 0, 0, 0, 45, 45, 45, 45, 45],
       [0, 0, 0, 0, 72, 72, 72, 72, 72, 72, 72, 72, 72, 117, 117],
       [0, 0, 0, 0, 72, 72, 72, 77, 77, 77, 149, 149, 149, 149, 149],
       [0, 0, 0, 0, 72, 72, 72, 77, 77, 88, 149, 149, 149, 149, 149]] ∧
    bestValue [(9, 45), (3, 72), (6, 77), (5, 16)] 15 = 165 := by
  decide

end DPNotebook
